import Mathlib

set_option maxRecDepth 8000

/-!
Verification development for the `ProfileWebScraper` crawler in `src/utils.py`.

Python strings are modelled as `List Char`; the Python string primitives used by
the source (`str.split`, `str.join`, `str.strip`) are given executable models
below.  The crawler state (visited set, pending deque, profile list, page
counter) is modelled as an explicit record, and the driver loop of
`scrape_website` as a step function iterated over that record.  Network fetches
and the language-model call are external collaborators, modelled as an oracle
(`World`) consulted by the step function.
-/

namespace BDAScraper

/-- The whitespace characters recognized by Python `str.split()` / `str.strip()`. -/
def isPyWs (c : Char) : Bool :=
  c == ' ' || c == '\t' || c == '\n' || c == '\r' || c == '\x0b' || c == '\x0c'

/-- Newline test, for Python `text.split('\n')`. -/
def isNl (c : Char) : Bool :=
  c == '\n'

/-- Split at every character satisfying `p`, keeping empty pieces: models Python
`s.split(sep)` for a one-character separator, and the first stage of `s.split()`. -/
def pySplitSep (p : Char → Bool) : List Char → List (List Char)
  | [] => [[]]
  | c :: cs =>
    if p c then [] :: pySplitSep p cs
    else
      match pySplitSep p cs with
      | [] => [[c]]
      | w :: ws => (c :: w) :: ws

/-- Python `s.split()` with no argument: split on whitespace runs, dropping empties. -/
def pySplitWs (s : List Char) : List (List Char) :=
  (pySplitSep isPyWs s).filter (fun w => !w.isEmpty)

/-- Python `sep.join(xs)`. -/
def pyJoin (sep : List Char) : List (List Char) → List Char
  | [] => []
  | [w] => w
  | w :: w2 :: ws => w ++ sep ++ pyJoin sep (w2 :: ws)

/-- Python `s.strip()`: remove leading and trailing whitespace. -/
def pyStrip (s : List Char) : List Char :=
  ((s.dropWhile isPyWs).reverse.dropWhile isPyWs).reverse

/-- The whitespace collapse `' '.join(text.split())` (utils.py line 44). -/
def pyCollapse (s : List Char) : List Char :=
  pyJoin [' '] (pySplitWs s)

/-- `ProfileWebScraper.clean_text` (utils.py lines 43-46): collapse whitespace to
single spaces, split on newlines, keep the lines whose stripped length is more
than 30 characters, and rejoin with newlines. -/
def clean_text (text : List Char) : List Char :=
  pyJoin ['\n']
    ((pySplitSep isNl (pyCollapse text)).filter (fun l => 30 < (pyStrip l).length))

theorem pySplitSep_ne_nil (p : Char → Bool) (s : List Char) : pySplitSep p s ≠ [] := by
  induction s with
  | nil => simp [pySplitSep]
  | cons c cs ih =>
    rw [pySplitSep]
    split
    · simp
    · split
      · simp
      · simp

theorem mem_pySplitSep (p : Char → Bool) (s : List Char) :
    ∀ w ∈ pySplitSep p s, ∀ c ∈ w, p c = false := by
  induction s with
  | nil =>
    intro w hw c hc
    simp [pySplitSep] at hw
    subst hw
    simp at hc
  | cons a as ih =>
    intro w hw c hc
    rw [pySplitSep] at hw
    by_cases hp : p a = true
    · rw [if_pos hp] at hw
      rcases List.mem_cons.mp hw with h | h
      · subst h; simp at hc
      · exact ih w h c hc
    · rw [if_neg (by simpa using hp)] at hw
      cases hr : pySplitSep p as with
      | nil => exact absurd hr (pySplitSep_ne_nil p as)
      | cons w0 ws =>
        rw [hr] at hw
        rcases List.mem_cons.mp hw with h | h
        · subst h
          rcases List.mem_cons.mp hc with h' | h'
          · subst h'; simpa using hp
          · exact ih w0 (by rw [hr]; exact List.mem_cons_self w0 ws) c h'
        · exact ih w (by rw [hr]; exact List.mem_cons.mpr (Or.inr h)) c hc

theorem mem_pyJoin (sep : List Char) (ws : List (List Char)) (c : Char)
    (h : c ∈ pyJoin sep ws) : c ∈ sep ∨ ∃ w ∈ ws, c ∈ w := by
  induction ws with
  | nil => simp [pyJoin] at h
  | cons w ws ih =>
    cases ws with
    | nil =>
      rw [pyJoin] at h
      exact Or.inr ⟨w, by simp, h⟩
    | cons w2 ws2 =>
      rw [pyJoin] at h
      rcases List.mem_append.mp h with h1 | h2
      · rcases List.mem_append.mp h1 with ha | hb
        · exact Or.inr ⟨w, by simp, ha⟩
        · exact Or.inl hb
      · rcases ih h2 with h | ⟨w', hw', hc⟩
        · exact Or.inl h
        · exact Or.inr ⟨w', List.mem_cons.mpr (Or.inr hw'), hc⟩

theorem pySplitWs_words (s : List Char) :
    ∀ w ∈ pySplitWs s, w ≠ [] ∧ ∀ c ∈ w, isPyWs c = false := by
  intro w hw
  have h1 := List.mem_filter.mp hw
  refine ⟨?_, fun c hc => mem_pySplitSep isPyWs s w h1.1 c hc⟩
  have h2 := h1.2
  cases w <;> simp_all

theorem ws_not_mem_pyCollapse (s : List Char) (c : Char)
    (hws : isPyWs c = true) (hne : c ≠ ' ') : c ∉ pyCollapse s := by
  intro hmem
  rcases mem_pyJoin [' '] (pySplitWs s) c hmem with h | ⟨w, hw, hc⟩
  · simp at h; exact hne h
  · have hfl := (pySplitWs_words s w hw).2 c hc
    rw [hws] at hfl
    exact Bool.true_eq_false.mp hfl

theorem pySplitSep_eq_single (p : Char → Bool) (s : List Char)
    (h : ∀ c ∈ s, p c = false) : pySplitSep p s = [s] := by
  induction s with
  | nil => rfl
  | cons a as ih =>
    rw [pySplitSep]
    rw [if_neg (by simp [h a (by simp)])]
    rw [ih (fun c hc => h c (by simp [hc]))]

theorem filter_singleton_pos {p : List Char → Bool} {u : List Char}
    (h : p u = true) : List.filter p [u] = [u] := by
  simp [List.filter, h]

theorem filter_singleton_neg {p : List Char → Bool} {u : List Char}
    (h : p u = false) : List.filter p [u] = [] := by
  simp [List.filter, h]

/-- Evaluation law for `clean_text`: after the whitespace collapse no newline is
left, so the "line filter" sees one line only. -/
theorem clean_text_eq (text : List Char) :
    clean_text text =
      if 30 < (pyStrip (pyCollapse text)).length then pyCollapse text else [] := by
  have hnl : ∀ c ∈ pyCollapse text, isNl c = false := by
    intro c hc
    by_cases h : c = '\n'
    · subst h
      exact absurd hc (ws_not_mem_pyCollapse text '\n' (by decide) (by decide))
    · simp [isNl, h]
  rw [clean_text, pySplitSep_eq_single _ _ hnl]
  by_cases h : 30 < (pyStrip (pyCollapse text)).length
  · rw [if_pos h, filter_singleton_pos (by simpa using h)]
    rfl
  · rw [if_neg h, filter_singleton_neg (by simpa using h)]
    rfl

theorem pySplitSep_append (p : Char → Bool) (a b : List Char) (x : Char)
    (ha : ∀ c ∈ a, p c = false) (hx : p x = true) :
    pySplitSep p (a ++ x :: b) = a :: pySplitSep p b := by
  induction a with
  | nil => simp [pySplitSep, hx]
  | cons c a' ih =>
    rw [List.cons_append, pySplitSep]
    rw [if_neg (by simp [ha c (by simp)])]
    rw [ih (fun d hd => ha d (by simp [hd]))]

theorem pySplitWs_pyJoin (ws : List (List Char))
    (h : ∀ w ∈ ws, w ≠ [] ∧ ∀ c ∈ w, isPyWs c = false) :
    pySplitWs (pyJoin [' '] ws) = ws := by
  induction ws with
  | nil => rfl
  | cons w ws' ih =>
    cases ws' with
    | nil =>
      rw [pyJoin, pySplitWs, pySplitSep_eq_single _ _ (h w (by simp)).2]
      have hw : w ≠ [] := (h w (by simp)).1
      rw [filter_singleton_pos (by simpa using hw)]
    | cons w2 ws2 =>
      rw [pyJoin, pySplitWs, List.append_assoc, List.singleton_append,
        pySplitSep_append isPyWs w _ ' ' (h w (by simp)).2 (by decide)]
      rw [List.filter_cons]
      have hw : w ≠ [] := (h w (by simp)).1
      rw [if_pos (by simpa using hw)]
      have ihh := ih (fun w' hw' => h w' (List.mem_cons.mpr (Or.inr hw')))
      rw [pySplitWs] at ihh
      rw [ihh]

theorem pyCollapse_idem (s : List Char) : pyCollapse (pyCollapse s) = pyCollapse s := by
  unfold pyCollapse
  rw [pySplitWs_pyJoin _ (pySplitWs_words s)]

/-- C9: The cleaning function is idempotent: for every input string `text`,
`clean(clean(text))` equals `clean(text)`. -/
theorem c9_clean_text_idempotent (text : List Char) :
    clean_text (clean_text text) = clean_text text := by
  rw [clean_text_eq text]
  by_cases h : 30 < (pyStrip (pyCollapse text)).length
  · rw [if_pos h, clean_text_eq (pyCollapse text), pyCollapse_idem]
    rw [if_pos h]
  · rw [if_neg h]
    rfl

/-- C10: For every input string the output of `clean_text` contains no newline:
the whitespace collapse removes all line breaks before the split on newlines, so
the result is the entire collapsed text when its stripped length exceeds 30
characters, and the empty string otherwise — never a multi-line selection. -/
theorem c10_clean_text_no_newline (text : List Char) :
    '\n' ∉ clean_text text ∧
      clean_text text =
        (if 30 < (pyStrip (pyCollapse text)).length then pyCollapse text else []) := by
  refine ⟨?_, clean_text_eq text⟩
  rw [clean_text_eq text]
  by_cases h : 30 < (pyStrip (pyCollapse text)).length
  · rw [if_pos h]
    exact ws_not_mem_pyCollapse text '\n' (by decide) (by decide)
  · rw [if_neg h]
    simp

/-- A line of exactly 30 characters. -/
def thirtyA : List Char := List.replicate 30 'a'

/-- A line of 31 characters. -/
def thirtyOneA : List Char := List.replicate 31 'a'

/-- Counterexample to C4: the collapsed text `thirtyA` is itself the single
"line" seen by the filter, it has exactly 30 characters, yet `clean_text` drops
it (the source keeps lines with stripped length strictly greater than 30), so a
line of exactly 30 characters does not survive. -/
theorem c4_counterexample :
    pySplitSep isNl (pyCollapse thirtyA) = [thirtyA] ∧
      thirtyA.length = 30 ∧ clean_text thirtyA = [] := by
  refine ⟨by decide, by decide, by decide⟩

/-- C4 (amended): the cleaning step collapses all whitespace runs to single
spaces, then splits on line breaks, drops every resulting line whose stripped
length is at most 30 characters, and rejoins the survivors; a line survives the
filter exactly when its stripped length is strictly greater than 30. -/
theorem c4_amended_line_filter (text : List Char) :
    (30 < (pyStrip (pyCollapse text)).length → clean_text text = pyCollapse text) ∧
      ((pyStrip (pyCollapse text)).length ≤ 30 → clean_text text = []) := by
  constructor
  · intro h
    rw [clean_text_eq, if_pos h]
  · intro h
    rw [clean_text_eq, if_neg (by omega)]

/-- Witness for `c4_amended_line_filter`: a 31-character line survives cleaning. -/
theorem c4_amended_line_filter_witness : clean_text thirtyOneA = pyCollapse thirtyOneA :=
  (c4_amended_line_filter thirtyOneA).1 (by decide)

/-- Characters allowed after the first in a URL scheme (`urllib.parse`). -/
def isSchemeChar (c : Char) : Bool :=
  c.isAlpha || c.isDigit || c == '+' || c == '-' || c == '.'

/-- A non-empty scheme starting with a letter, as required by `urllib.parse`. -/
def validScheme : List Char → Bool
  | [] => false
  | c :: rest => c.isAlpha && rest.all isSchemeChar

/-- Split `scheme:rest` off a URL, as `urllib.parse.urlparse` does: the scheme is
the part before the first `:` when that part is a valid scheme name (lowercased);
otherwise the whole input is the rest and the scheme is empty. -/
def splitScheme (cs : List Char) : List Char × List Char :=
  match cs.dropWhile (fun c => c != ':') with
  | ':' :: r =>
    if validScheme (cs.takeWhile (fun c => c != ':')) then
      ((cs.takeWhile (fun c => c != ':')).map Char.toLower, r)
    else ([], cs)
  | _ => ([], cs)

/-- The network location of the post-scheme part: present only after `//`, and
runs until a `/`, `?` or `#` (`urllib.parse.urlparse`). -/
def netlocOf : List Char → List Char
  | '/' :: '/' :: r => r.takeWhile (fun c => c != '/' && c != '?' && c != '#')
  | _ => []

/-- The (scheme, netloc) projection of `urllib.parse.urlparse` used by
`is_valid_url`. -/
structure ParsedUrl where
  scheme : List Char
  netloc : List Char
deriving DecidableEq

/-- Model of `urllib.parse.urlparse`, restricted to the two fields the source
reads. -/
def urlparse (url : String) : ParsedUrl :=
  ⟨(splitScheme url.data).1, netlocOf (splitScheme url.data).2⟩

/-- `ProfileWebScraper.is_valid_url` (utils.py lines 34-41): same netloc as the
base URL and scheme `http` or `https`.  The model is total, mirroring the
`try`/`except` wrapper: every input yields a boolean, never an exception. -/
def is_valid_url (base url : String) : Bool :=
  ((urlparse url).netloc == (urlparse base).netloc) &&
    ((urlparse url).scheme == "http".data || (urlparse url).scheme == "https".data)

/-- C7: the admission check returns true only if the URL's host equals the base
URL's host exactly and its scheme is http or https; it is a total boolean
function (the `try`/`except` in the source means malformed URLs yield `False`,
never an exception). -/
theorem c7_admission_only_if (base url : String)
    (h : is_valid_url base url = true) :
    (urlparse url).netloc = (urlparse base).netloc ∧
      ((urlparse url).scheme = "http".data ∨ (urlparse url).scheme = "https".data) := by
  rw [is_valid_url, Bool.and_eq_true, Bool.or_eq_true] at h
  refine ⟨by simpa using h.1, ?_⟩
  rcases h.2 with h2 | h2
  · exact Or.inl (by simpa using h2)
  · exact Or.inr (by simpa using h2)

/-- Witness for `c7_admission_only_if` at a concrete admitted URL. -/
theorem c7_admission_only_if_witness :
    (urlparse "http://h/x").netloc = (urlparse "http://h").netloc ∧
      ((urlparse "http://h/x").scheme = "http".data ∨
        (urlparse "http://h/x").scheme = "https".data) :=
  c7_admission_only_if "http://h" "http://h/x" (by decide)

/-- JSON values, as produced by `json.loads` on the extraction collaborator's
reply. -/
inductive JsonVal where
  | null
  | bool (b : Bool)
  | num (n : Int)
  | str (s : String)
  | arr (xs : List JsonVal)
  | obj (kvs : List (String × JsonVal))

/-- Python `dict.get`-style lookup in a JSON object. -/
def jlookup (key : String) : List (String × JsonVal) → Option JsonVal
  | [] => none
  | kv :: kvs => if kv.1 = key then some kv.2 else jlookup key kvs

/-- `ProfileWebScraper.extract_profiles_with_openai` (utils.py lines 48-68),
seen from after the chat-completion call: the argument is the parsed reply
(`none` when the API call raised or `json.loads` failed — both are caught and
give `[]`).  When the reply is a JSON object, `result.get('profiles', [])` is
returned as-is, with no validation of its shape; any other reply raises inside
the `try` (e.g. `AttributeError` on `.get`), is caught, and gives `[]`. -/
def extract_profiles_with_openai (resp : Option JsonVal) : JsonVal :=
  match resp with
  | some (JsonVal.obj kvs) => (jlookup "profiles" kvs).getD (JsonVal.arr [])
  | _ => JsonVal.arr []

/-- Python iteration over a JSON value, as `list.extend` performs it: arrays
yield their elements, strings their characters, objects their keys; `None`,
booleans and numbers are not iterable (`TypeError`, giving `none`). -/
def pyIterList : JsonVal → Option (List JsonVal)
  | JsonVal.arr xs => some xs
  | JsonVal.str s => some (s.data.map (fun c => JsonVal.str (String.mk [c])))
  | JsonVal.obj kvs => some (kvs.map (fun kv => JsonVal.str kv.1))
  | _ => none

/-- A JSON object with string-valued `name` and `about` fields: one record of
the documented reply shape. -/
def isProfileRecord : JsonVal → Bool
  | JsonVal.obj kvs =>
    (match jlookup "name" kvs with
     | some (JsonVal.str _) => true
     | _ => false) &&
    (match jlookup "about" kvs with
     | some (JsonVal.str _) => true
     | _ => false)
  | _ => false

/-- The documented reply shape: a JSON object whose `profiles` field is an array
of profile records. -/
def shapeOk : Option JsonVal → Bool
  | some (JsonVal.obj kvs) =>
    (match jlookup "profiles" kvs with
     | some (JsonVal.arr xs) => xs.all isProfileRecord
     | _ => false)
  | _ => false

/-- A reply that IS a JSON object but whose `profiles` field is not a list of
profile records. -/
def badShapeResp : Option JsonVal :=
  some (JsonVal.obj [("profiles", JsonVal.arr [JsonVal.num 1, JsonVal.num 2])])

/-- Whether the reply is a JSON object at all. -/
def isObjResp : Option JsonVal → Bool
  | some (JsonVal.obj _) => true
  | _ => false

/-- Counterexample to C8: a reply that does not match the documented
`profiles` shape is nevertheless returned as-is — two non-conforming entries,
not an empty list. -/
theorem c8_counterexample :
    shapeOk badShapeResp = false ∧
      extract_profiles_with_openai badShapeResp =
        JsonVal.arr [JsonVal.num 1, JsonVal.num 2] ∧
      pyIterList (extract_profiles_with_openai badShapeResp) =
        some [JsonVal.num 1, JsonVal.num 2] := by
  refine ⟨rfl, rfl, rfl⟩

/-- C8 (amended): a reply that fails JSON parsing or is not a JSON object is
treated as zero profiles (the exception is caught inside the call); for an
object reply, the `profiles` value is returned without shape validation,
defaulting to the empty list when the key is absent. -/
theorem c8_amended_extraction (resp : Option JsonVal) (kvs : List (String × JsonVal)) :
    (isObjResp resp = false → extract_profiles_with_openai resp = JsonVal.arr []) ∧
      (jlookup "profiles" kvs = none →
        extract_profiles_with_openai (some (JsonVal.obj kvs)) = JsonVal.arr []) ∧
      (∀ v, jlookup "profiles" kvs = some v →
        extract_profiles_with_openai (some (JsonVal.obj kvs)) = v) := by
  refine ⟨?_, ?_, ?_⟩
  · intro h
    cases resp with
    | none => rfl
    | some j => cases j <;> first | rfl | simp [isObjResp] at h
  · intro h
    simp [extract_profiles_with_openai, h]
  · intro v h
    simp [extract_profiles_with_openai, h]

/-- Witness for `c8_amended_extraction`: a non-object reply yields zero
profiles, and a present `profiles` key is passed through unvalidated. -/
theorem c8_amended_extraction_witness :
    extract_profiles_with_openai (some (JsonVal.str "oops")) = JsonVal.arr [] ∧
      extract_profiles_with_openai (some (JsonVal.obj [("profiles", JsonVal.num 7)])) =
        JsonVal.num 7 :=
  ⟨(c8_amended_extraction (some (JsonVal.str "oops")) []).1 rfl,
    (c8_amended_extraction (some (JsonVal.str "oops"))
      [("profiles", JsonVal.num 7)]).2.2 (JsonVal.num 7) rfl⟩

/-- The outcome of fetching and parsing one page: the visible text extracted by
the HTML collaborator and the anchor hrefs already resolved to absolute URLs by
`urljoin`. -/
structure PageData where
  text : List Char
  hrefs : List String

/-- The external collaborators of one run: `fetch url` is `none` when the HTTP
GET, `raise_for_status` or the HTML parse raises; `llm cleanedText` is the parsed
JSON of the chat-completion reply, `none` when the API call raises or the reply
is not valid JSON. -/
structure World where
  fetch : String → Option PageData
  llm : List Char → Option JsonVal

/-- Observable actions of the driver loop: a URL popped from the deque, a URL
handed to `scrape_page`, and a `save_data()` call together with the value of
`pages_scraped` at that moment. -/
inductive Event where
  | dequeued (url : String)
  | processed (url : String)
  | saved (count : Nat)
deriving DecidableEq

/-- The mutable state of `ProfileWebScraper`: `visited_urls`, `urls_to_visit`,
`self.profiles`, the local `pages_scraped` counter of `scrape_website`, and an
instrumentation trace of observable events. -/
structure ScrapeState where
  visited : List String
  queue : List String
  profiles : List JsonVal
  pagesScraped : Nat
  events : List Event

/-- `ProfileWebScraper.extract_links` (utils.py lines 70-77): append each href
admitted by `is_valid_url` that is in neither the visited set nor the pending
deque. -/
def extract_links (base : String) (st : ScrapeState) : List String → ScrapeState
  | [] => st
  | u :: rest =>
    if is_valid_url base u && !(st.visited.contains u) && !(st.queue.contains u) then
      extract_links base { st with queue := st.queue ++ [u] } rest
    else
      extract_links base st rest

/-- `ProfileWebScraper.scrape_page` (utils.py lines 79-101): on a fetch/parse
exception return `False` with the state untouched; otherwise clean the page
text, call the extraction collaborator, extend `self.profiles` with whatever it
returned (a `TypeError` from extending a non-iterable is caught by the same
`except`, returning `False` before any mutation), extract links, return `True`. -/
def scrape_page (w : World) (base : String) (st : ScrapeState) (url : String) :
    Bool × ScrapeState :=
  match w.fetch url with
  | none => (false, st)
  | some pd =>
    match pyIterList (extract_profiles_with_openai (w.llm (clean_text pd.text))) with
    | none => (false, st)
    | some ps =>
      (true, extract_links base { st with profiles := st.profiles ++ ps } pd.hrefs)

/-- The state right after popping `u` (leaving `rest` queued) and adding it to
`visited_urls` (utils.py lines 108-114), with the trace recording the pop and
the `scrape_page` call about to happen. -/
def markVisited (s : ScrapeState) (u : String) (rest : List String) : ScrapeState :=
  { s with queue := rest
           visited := s.visited ++ [u]
           events := s.events ++ [Event.dequeued u, Event.processed u] }

/-- The body of a non-skipped loop iteration (utils.py lines 113-122): mark `u`
visited, scrape it, increment `pages_scraped` when `scrape_page` returned
`True`, and call `save_data()` when `pages_scraped % 10 == 0`. -/
def processUrl (w : World) (base : String) (s : ScrapeState) (u : String)
    (rest : List String) : ScrapeState :=
  let pr := scrape_page w base (markVisited s u rest) u
  let s2 := if pr.1 then { pr.2 with pagesScraped := pr.2.pagesScraped + 1 } else pr.2
  if s2.pagesScraped % 10 = 0 then
    { s2 with events := s2.events ++ [Event.saved s2.pagesScraped] }
  else s2

/-- One iteration of the `while` loop of `ProfileWebScraper.scrape_website`
(utils.py lines 107-122): `none` when the loop guard fails.  A popped URL that
is already visited is skipped (`continue`); otherwise the iteration body
`processUrl` runs. -/
def scrapeStep (w : World) (base : String) (maxPages : Nat) (s : ScrapeState) :
    Option ScrapeState :=
  match s.queue with
  | [] => none
  | u :: rest =>
    if maxPages ≤ s.pagesScraped then none
    else if s.visited.contains u then
      some { s with queue := rest, events := s.events ++ [Event.dequeued u] }
    else
      some (processUrl w base s u rest)

/-- One loop iteration, staying put once the guard fails. -/
def step1 (w : World) (base : String) (mp : Nat) (s : ScrapeState) : ScrapeState :=
  (scrapeStep w base mp s).getD s

/-- `n` iterations of the driver loop. -/
def scrapeIter (w : World) (base : String) (mp : Nat) : Nat → ScrapeState → ScrapeState
  | 0, s => s
  | n + 1, s => scrapeIter w base mp n (step1 w base mp s)

/-- The state of `scrape_website` right after seeding the deque with the base
URL (utils.py lines 104-105). -/
def initState (base : String) : ScrapeState :=
  { visited := [], queue := [base], profiles := [], pagesScraped := 0, events := [] }

/-- The crawl state after `n` loop iterations of `scrape_website w base mp`. -/
def crawlState (w : World) (base : String) (mp : Nat) (n : Nat) : ScrapeState :=
  scrapeIter w base mp n (initState base)

theorem extract_links_visited (base : String) (hs : List String) :
    ∀ st : ScrapeState, (extract_links base st hs).visited = st.visited := by
  induction hs with
  | nil => intro st; rfl
  | cons u rest ih =>
    intro st
    rw [extract_links]
    split
    · rw [ih]
    · rw [ih]

theorem extract_links_pages (base : String) (hs : List String) :
    ∀ st : ScrapeState, (extract_links base st hs).pagesScraped = st.pagesScraped := by
  induction hs with
  | nil => intro st; rfl
  | cons u rest ih =>
    intro st
    rw [extract_links]
    split
    · rw [ih]
    · rw [ih]

theorem extract_links_events (base : String) (hs : List String) :
    ∀ st : ScrapeState, (extract_links base st hs).events = st.events := by
  induction hs with
  | nil => intro st; rfl
  | cons u rest ih =>
    intro st
    rw [extract_links]
    split
    · rw [ih]
    · rw [ih]

theorem extract_links_queue_mem (base : String) (hs : List String) :
    ∀ st : ScrapeState, ∀ x ∈ (extract_links base st hs).queue,
      x ∈ st.queue ∨ is_valid_url base x = true := by
  induction hs with
  | nil => intro st x hx; exact Or.inl hx
  | cons u rest ih =>
    intro st x hx
    rw [extract_links] at hx
    by_cases hcond :
        (is_valid_url base u && !(st.visited.contains u) && !(st.queue.contains u)) = true
    · rw [if_pos hcond] at hx
      rw [Bool.and_eq_true, Bool.and_eq_true] at hcond
      rcases ih _ x hx with h | h
      · rcases List.mem_append.mp h with h | h
        · exact Or.inl h
        · rw [List.mem_singleton] at h
          subst h
          exact Or.inr hcond.1.1
      · exact Or.inr h
    · rw [if_neg hcond] at hx
      exact ih st x hx

theorem extract_links_queue_inv (base : String) (hs : List String) :
    ∀ st : ScrapeState, st.queue.Nodup → (∀ x ∈ st.queue, x ∉ st.visited) →
      (extract_links base st hs).queue.Nodup ∧
        ∀ x ∈ (extract_links base st hs).queue, x ∉ st.visited := by
  induction hs with
  | nil => intro st h1 h2; exact ⟨h1, h2⟩
  | cons u rest ih =>
    intro st h1 h2
    rw [extract_links]
    by_cases hcond :
        (is_valid_url base u && !(st.visited.contains u) && !(st.queue.contains u)) = true
    · rw [if_pos hcond]
      rw [Bool.and_eq_true, Bool.and_eq_true] at hcond
      have hnq : u ∉ st.queue := by simpa using hcond.2
      have hnv : u ∉ st.visited := by simpa using hcond.1.2
      have hnd : (st.queue ++ [u]).Nodup := by
        rw [List.nodup_append]
        refine ⟨h1, List.nodup_singleton u, ?_⟩
        intro a ha ha'
        rw [List.mem_singleton] at ha'
        subst ha'
        exact hnq ha
      have hmem : ∀ x ∈ st.queue ++ [u], x ∉ st.visited := by
        intro x hx
        rcases List.mem_append.mp hx with h | h
        · exact h2 x h
        · rw [List.mem_singleton] at h; subst h; exact hnv
      exact ih { st with queue := st.queue ++ [u] } hnd hmem
    · rw [if_neg hcond]
      exact ih st h1 h2

theorem scrape_page_cases (w : World) (base : String) (st : ScrapeState) (url : String) :
    scrape_page w base st url = (false, st) ∨
      ∃ (pd : PageData) (ps : List JsonVal), scrape_page w base st url =
        (true, extract_links base { st with profiles := st.profiles ++ ps } pd.hrefs) := by
  rcases hf : w.fetch url with _ | pd
  · left
    simp only [scrape_page, hf]
  · rcases hit : pyIterList (extract_profiles_with_openai (w.llm (clean_text pd.text)))
      with _ | ps
    · left
      simp only [scrape_page, hf, hit]
    · right
      refine ⟨pd, ps, ?_⟩
      simp only [scrape_page, hf, hit]

theorem scrape_page_visited (w : World) (base : String) (st : ScrapeState) (url : String) :
    (scrape_page w base st url).2.visited = st.visited := by
  rcases scrape_page_cases w base st url with h | ⟨pd, ps, h⟩ <;> rw [h]
  exact extract_links_visited base pd.hrefs { st with profiles := st.profiles ++ ps }

theorem scrape_page_pages (w : World) (base : String) (st : ScrapeState) (url : String) :
    (scrape_page w base st url).2.pagesScraped = st.pagesScraped := by
  rcases scrape_page_cases w base st url with h | ⟨pd, ps, h⟩ <;> rw [h]
  exact extract_links_pages base pd.hrefs { st with profiles := st.profiles ++ ps }

theorem scrape_page_events (w : World) (base : String) (st : ScrapeState) (url : String) :
    (scrape_page w base st url).2.events = st.events := by
  rcases scrape_page_cases w base st url with h | ⟨pd, ps, h⟩ <;> rw [h]
  exact extract_links_events base pd.hrefs { st with profiles := st.profiles ++ ps }

theorem scrape_page_fail (w : World) (base : String) (st : ScrapeState) (url : String)
    (h : (scrape_page w base st url).1 = false) : (scrape_page w base st url).2 = st := by
  rcases scrape_page_cases w base st url with heq | ⟨pd, ps, heq⟩
  · rw [heq]
  · rw [heq] at h
    simp at h

theorem scrape_page_queue_mem (w : World) (base : String) (st : ScrapeState) (url : String) :
    ∀ x ∈ (scrape_page w base st url).2.queue, x ∈ st.queue ∨ is_valid_url base x = true := by
  intro x hx
  rcases scrape_page_cases w base st url with h | ⟨pd, ps, h⟩
  · rw [h] at hx
    exact Or.inl hx
  · rw [h] at hx
    exact extract_links_queue_mem base pd.hrefs { st with profiles := st.profiles ++ ps } x hx

theorem scrape_page_queue_inv (w : World) (base : String) (st : ScrapeState) (url : String)
    (h1 : st.queue.Nodup) (h2 : ∀ x ∈ st.queue, x ∉ st.visited) :
    (scrape_page w base st url).2.queue.Nodup ∧
      ∀ x ∈ (scrape_page w base st url).2.queue, x ∉ st.visited := by
  rcases scrape_page_cases w base st url with h | ⟨pd, ps, h⟩
  · rw [h]
    exact ⟨h1, h2⟩
  · rw [h]
    exact extract_links_queue_inv base pd.hrefs { st with profiles := st.profiles ++ ps } h1 h2

theorem scrape_page_fetch_none (w : World) (base : String) (st : ScrapeState) (url : String)
    (h : w.fetch url = none) : scrape_page w base st url = (false, st) := by
  simp only [scrape_page, h]

theorem processUrl_queue_eq (w : World) (base : String) (s : ScrapeState) (u : String)
    (rest : List String) :
    (processUrl w base s u rest).queue =
      (scrape_page w base (markVisited s u rest) u).2.queue := by
  rcases hpr : scrape_page w base (markVisited s u rest) u with ⟨b, t⟩
  cases b
  · simp only [processUrl, hpr]
    rw [if_neg Bool.false_ne_true]
    split <;> rfl
  · simp only [processUrl, hpr]
    rw [if_pos trivial]
    split <;> rfl

theorem processUrl_visited_eq (w : World) (base : String) (s : ScrapeState) (u : String)
    (rest : List String) :
    (processUrl w base s u rest).visited =
      (scrape_page w base (markVisited s u rest) u).2.visited := by
  rcases hpr : scrape_page w base (markVisited s u rest) u with ⟨b, t⟩
  cases b
  · simp only [processUrl, hpr]
    rw [if_neg Bool.false_ne_true]
    split <;> rfl
  · simp only [processUrl, hpr]
    rw [if_pos trivial]
    split <;> rfl

theorem processUrl_visited (w : World) (base : String) (s : ScrapeState) (u : String)
    (rest : List String) :
    (processUrl w base s u rest).visited = s.visited ++ [u] := by
  rw [processUrl_visited_eq, scrape_page_visited]
  rfl

theorem processUrl_queue_mem (w : World) (base : String) (s : ScrapeState) (u : String)
    (rest : List String) :
    ∀ x ∈ (processUrl w base s u rest).queue, x ∈ rest ∨ is_valid_url base x = true := by
  intro x hx
  rw [processUrl_queue_eq] at hx
  exact scrape_page_queue_mem w base (markVisited s u rest) u x hx

theorem processUrl_queue_inv (w : World) (base : String) (s : ScrapeState) (u : String)
    (rest : List String) (h1 : rest.Nodup) (h2 : ∀ x ∈ rest, x ∉ s.visited ++ [u]) :
    (processUrl w base s u rest).queue.Nodup ∧
      ∀ x ∈ (processUrl w base s u rest).queue, x ∉ s.visited ++ [u] := by
  have h := scrape_page_queue_inv w base (markVisited s u rest) u h1 h2
  rw [← processUrl_queue_eq] at h
  exact h

theorem processUrl_progress (w : World) (base : String) (s : ScrapeState) (u : String)
    (rest : List String) :
    ((processUrl w base s u rest).pagesScraped = s.pagesScraped ∧
      (processUrl w base s u rest).queue = rest) ∨
      (processUrl w base s u rest).pagesScraped = s.pagesScraped + 1 := by
  rcases hpr : scrape_page w base (markVisited s u rest) u with ⟨b, t⟩
  cases b
  · have ht : t = markVisited s u rest := by
      have h := scrape_page_fail w base (markVisited s u rest) u (by rw [hpr])
      rw [hpr] at h
      exact h
    subst ht
    left
    simp only [processUrl, hpr]
    rw [if_neg Bool.false_ne_true]
    constructor
    · split <;> simp [markVisited]
    · split <;> simp [markVisited]
  · have hpages : t.pagesScraped = s.pagesScraped := by
      have h := scrape_page_pages w base (markVisited s u rest) u
      rw [hpr] at h
      exact h
    right
    simp only [processUrl, hpr]
    rw [if_pos trivial]
    split <;> simp [hpages]

theorem contains_true_iff (l : List String) (a : String) :
    l.contains a = true ↔ a ∈ l := by
  simp [List.contains]

theorem step_none_iff (w : World) (base : String) (mp : Nat) (s : ScrapeState) :
    scrapeStep w base mp s = none ↔ (s.queue = [] ∨ mp ≤ s.pagesScraped) := by
  cases hq : s.queue with
  | nil => simp [scrapeStep, hq]
  | cons u rest =>
    simp only [scrapeStep, hq]
    by_cases hmp : mp ≤ s.pagesScraped
    · simp [hmp]
    · rw [if_neg hmp]
      simp only [List.cons_ne_nil, false_or]
      constructor
      · intro h
        by_cases hv : s.visited.contains u = true
        · rw [if_pos hv] at h
          exact absurd h (by simp)
        · rw [if_neg hv] at h
          exact absurd h (by simp)
      · intro h
        exact absurd h hmp

theorem step_skip (w : World) (base : String) (mp : Nat) (s : ScrapeState)
    (u : String) (rest : List String) (hq : s.queue = u :: rest)
    (hmp : s.pagesScraped < mp) (hv : s.visited.contains u = true) :
    scrapeStep w base mp s =
      some { s with queue := rest, events := s.events ++ [Event.dequeued u] } := by
  simp only [scrapeStep, hq]
  rw [if_neg (by omega), if_pos hv]

theorem step_proc (w : World) (base : String) (mp : Nat) (s : ScrapeState)
    (u : String) (rest : List String) (hq : s.queue = u :: rest)
    (hmp : s.pagesScraped < mp) (hv : s.visited.contains u = false) :
    scrapeStep w base mp s = some (processUrl w base s u rest) := by
  simp only [scrapeStep, hq]
  rw [if_neg (by omega), if_neg (by rw [hv]; simp)]

theorem step_progress (w : World) (base : String) (mp : Nat) (s s' : ScrapeState)
    (h : scrapeStep w base mp s = some s') :
    (s'.pagesScraped = s.pagesScraped ∧ s'.queue.length < s.queue.length) ∨
      (s.pagesScraped < mp ∧ s'.pagesScraped = s.pagesScraped + 1) := by
  cases hq : s.queue with
  | nil => rw [(step_none_iff w base mp s).mpr (Or.inl hq)] at h; exact absurd h (by simp)
  | cons u rest =>
    by_cases hmp : mp ≤ s.pagesScraped
    · rw [(step_none_iff w base mp s).mpr (Or.inr hmp)] at h
      exact absurd h (by simp)
    · by_cases hv : s.visited.contains u = true
      · rw [step_skip w base mp s u rest hq (by omega) hv] at h
        have h' := Option.some.inj h
        left
        rw [← h']
        exact ⟨rfl, by simp [hq]⟩
      · rw [step_proc w base mp s u rest hq (by omega) (by simpa using hv)] at h
        have h' := Option.some.inj h
        rw [← h']
        rcases processUrl_progress w base s u rest with ⟨h1, h2⟩ | h1
        · left
          refine ⟨h1, ?_⟩
          rw [h2]
          simp
        · right
          exact ⟨by omega, h1⟩

theorem step_visited_mono (w : World) (base : String) (mp : Nat) (s s' : ScrapeState)
    (h : scrapeStep w base mp s = some s') : ∀ x ∈ s.visited, x ∈ s'.visited := by
  intro x hx
  cases hq : s.queue with
  | nil => rw [(step_none_iff w base mp s).mpr (Or.inl hq)] at h; exact absurd h (by simp)
  | cons u rest =>
    by_cases hmp : mp ≤ s.pagesScraped
    · rw [(step_none_iff w base mp s).mpr (Or.inr hmp)] at h
      exact absurd h (by simp)
    · by_cases hv : s.visited.contains u = true
      · rw [step_skip w base mp s u rest hq (by omega) hv] at h
        rw [← Option.some.inj h]
        exact hx
      · rw [step_proc w base mp s u rest hq (by omega) (by simpa using hv)] at h
        rw [← Option.some.inj h, processUrl_visited]
        exact List.mem_append.mpr (Or.inl hx)

/-- The `while` loop of `scrape_website` run to completion (utils.py lines
107-122); total by the lexicographic measure (remaining page budget, queue
length). -/
def scrapeLoop (w : World) (base : String) (mp : Nat) (s : ScrapeState) : ScrapeState :=
  match h : scrapeStep w base mp s with
  | none => s
  | some s' => scrapeLoop w base mp s'
termination_by (mp - s.pagesScraped, s.queue.length)
decreasing_by
  rcases step_progress w base mp s s' h with ⟨hp, hql⟩ | ⟨hlt, hp⟩
  · rw [hp]
    exact Prod.Lex.right (mp - s.pagesScraped) hql
  · exact Prod.Lex.left _ _ (by omega)

/-- `ProfileWebScraper.scrape_website` (utils.py lines 103-124): seed the deque
with the base URL, run the loop, and perform the final `save_data()`. -/
def scrape_website (w : World) (base : String) (mp : Nat) : ScrapeState :=
  let final := scrapeLoop w base mp (initState base)
  { final with events := final.events ++ [Event.saved final.pagesScraped] }

theorem step1_of_step (w : World) (base : String) (mp : Nat) (s s' : ScrapeState)
    (h : scrapeStep w base mp s = some s') : step1 w base mp s = s' := by
  simp [step1, h]

theorem step1_of_none (w : World) (base : String) (mp : Nat) (s : ScrapeState)
    (h : scrapeStep w base mp s = none) : step1 w base mp s = s := by
  simp [step1, h]

theorem term_aux (w : World) (base : String) (mp : Nat) :
    ∀ (k l : Nat) (s : ScrapeState), mp - s.pagesScraped ≤ k → s.queue.length ≤ l →
      ∃ n, scrapeStep w base mp (scrapeIter w base mp n s) = none := by
  intro k
  induction k with
  | zero =>
    intro l s hk _
    exact ⟨0, (step_none_iff w base mp s).mpr (Or.inr (by omega))⟩
  | succ k ihk =>
    intro l
    induction l with
    | zero =>
      intro s _ hl
      refine ⟨0, (step_none_iff w base mp s).mpr (Or.inl ?_)⟩
      exact List.length_eq_zero.mp (by omega)
    | succ l ihl =>
      intro s hk hl
      cases hstep : scrapeStep w base mp s with
      | none => exact ⟨0, hstep⟩
      | some s' =>
        rcases step_progress w base mp s s' hstep with ⟨hp, hql⟩ | ⟨hlt, hp⟩
        · obtain ⟨n, hn⟩ := ihl s' (by omega) (by omega)
          refine ⟨n + 1, ?_⟩
          show scrapeStep w base mp (scrapeIter w base mp n (step1 w base mp s)) = none
          rw [step1_of_step w base mp s s' hstep]
          exact hn
        · obtain ⟨n, hn⟩ := ihk s'.queue.length s' (by omega) le_rfl
          refine ⟨n + 1, ?_⟩
          show scrapeStep w base mp (scrapeIter w base mp n (step1 w base mp s)) = none
          rw [step1_of_step w base mp s s' hstep]
          exact hn

/-- C5: for every base URL, page budget and collaborator behavior — including a
world where every fetch fails — the driver loop reaches a state where its guard
fails, i.e. the pending queue is exhausted or the processed-page count has
reached the maximum; the crawl never runs forever. -/
theorem c5_loop_terminates (w : World) (base : String) (mp : Nat) :
    ∃ n, scrapeStep w base mp (crawlState w base mp n) = none ∧
      ((crawlState w base mp n).queue = [] ∨
        mp ≤ (crawlState w base mp n).pagesScraped) := by
  obtain ⟨n, hn⟩ := term_aux w base mp (mp - (initState base).pagesScraped)
    (initState base).queue.length (initState base) le_rfl le_rfl
  exact ⟨n, hn, (step_none_iff w base mp _).mp hn⟩

/-- The URLs handed to `scrape_page`, in order, as recorded in the trace. -/
def processedUrls (evts : List Event) : List String :=
  evts.filterMap fun e =>
    match e with
    | Event.processed u => some u
    | _ => none

/-- The URLs popped from the pending deque, in order, as recorded in the trace. -/
def dequeuedUrls (evts : List Event) : List String :=
  evts.filterMap fun e =>
    match e with
    | Event.dequeued u => some u
    | _ => none

theorem processedUrls_append (a b : List Event) :
    processedUrls (a ++ b) = processedUrls a ++ processedUrls b :=
  List.filterMap_append a b _

theorem dequeuedUrls_append (a b : List Event) :
    dequeuedUrls (a ++ b) = dequeuedUrls a ++ dequeuedUrls b :=
  List.filterMap_append a b _

theorem processedUrls_saved_tail (tail : List Event)
    (h : ∀ e ∈ tail, ∃ c, e = Event.saved c) : processedUrls tail = [] := by
  induction tail with
  | nil => rfl
  | cons e es ih =>
    obtain ⟨c, hc⟩ := h e (by simp)
    subst hc
    rw [show Event.saved c :: es = [Event.saved c] ++ es from rfl, processedUrls_append,
      ih (fun e he => h e (by simp [he]))]
    rfl

theorem dequeuedUrls_saved_tail (tail : List Event)
    (h : ∀ e ∈ tail, ∃ c, e = Event.saved c) : dequeuedUrls tail = [] := by
  induction tail with
  | nil => rfl
  | cons e es ih =>
    obtain ⟨c, hc⟩ := h e (by simp)
    subst hc
    rw [show Event.saved c :: es = [Event.saved c] ++ es from rfl, dequeuedUrls_append,
      ih (fun e he => h e (by simp [he]))]
    rfl

theorem processUrl_events_shape (w : World) (base : String) (s : ScrapeState)
    (u : String) (rest : List String) :
    ∃ tail, (∀ e ∈ tail, ∃ c, e = Event.saved c) ∧
      (processUrl w base s u rest).events =
        s.events ++ [Event.dequeued u, Event.processed u] ++ tail := by
  rcases hpr : scrape_page w base (markVisited s u rest) u with ⟨b, t⟩
  have hev : t.events = s.events ++ [Event.dequeued u, Event.processed u] := by
    have h := scrape_page_events w base (markVisited s u rest) u
    rw [hpr] at h
    exact h
  cases b
  · simp only [processUrl, hpr]
    rw [if_neg Bool.false_ne_true]
    split
    · exact ⟨[Event.saved t.pagesScraped], by simp, by rw [hev]⟩
    · exact ⟨[], by simp, by rw [hev]; simp⟩
  · simp only [processUrl, hpr]
    rw [if_pos trivial]
    split
    · exact ⟨[Event.saved (t.pagesScraped + 1)], by simp, by rw [hev]⟩
    · exact ⟨[], by simp, by rw [hev]; simp⟩

theorem processUrl_procUrls (w : World) (base : String) (s : ScrapeState)
    (u : String) (rest : List String) :
    processedUrls (processUrl w base s u rest).events = processedUrls s.events ++ [u] := by
  obtain ⟨tail, hsv, hev⟩ := processUrl_events_shape w base s u rest
  rw [hev, processedUrls_append, processedUrls_append, processedUrls_saved_tail tail hsv]
  simp [processedUrls]

theorem processUrl_deqUrls (w : World) (base : String) (s : ScrapeState)
    (u : String) (rest : List String) :
    dequeuedUrls (processUrl w base s u rest).events = dequeuedUrls s.events ++ [u] := by
  obtain ⟨tail, hsv, hev⟩ := processUrl_events_shape w base s u rest
  rw [hev, dequeuedUrls_append, dequeuedUrls_append, dequeuedUrls_saved_tail tail hsv]
  simp [dequeuedUrls]

/-- The frontier invariant of the crawl: the pending deque has no duplicates and
is disjoint from the visited set, every queued URL is the seeded base URL or an
admitted one, and the URLs popped (and the ones processed) are pairwise distinct
and all marked visited. -/
structure Inv (base : String) (s : ScrapeState) : Prop where
  nodupQ : s.queue.Nodup
  disj : ∀ u ∈ s.queue, u ∉ s.visited
  qAdm : ∀ u ∈ s.queue, u = base ∨ is_valid_url base u = true
  procSub : ∀ u ∈ processedUrls s.events, u ∈ s.visited
  procNodup : (processedUrls s.events).Nodup
  deqSub : ∀ u ∈ dequeuedUrls s.events, u ∈ s.visited
  deqNodup : (dequeuedUrls s.events).Nodup

theorem inv_init (base : String) : Inv base (initState base) := by
  refine ⟨by simp [initState], by simp [initState], ?_,
    by simp [initState, processedUrls], by simp [initState, processedUrls],
    by simp [initState, dequeuedUrls], by simp [initState, dequeuedUrls]⟩
  intro u hu
  left
  simpa [initState] using hu

theorem inv_step (w : World) (base : String) (mp : Nat) (s s' : ScrapeState)
    (hinv : Inv base s) (h : scrapeStep w base mp s = some s') : Inv base s' := by
  cases hq : s.queue with
  | nil =>
    rw [(step_none_iff w base mp s).mpr (Or.inl hq)] at h
    exact absurd h (by simp)
  | cons u rest =>
    by_cases hmp : mp ≤ s.pagesScraped
    · rw [(step_none_iff w base mp s).mpr (Or.inr hmp)] at h
      exact absurd h (by simp)
    · have hnodup : (u :: rest).Nodup := hq ▸ hinv.nodupQ
      by_cases hv : s.visited.contains u = true
      · exact absurd ((contains_true_iff _ _).mp hv)
          (hinv.disj u (by rw [hq]; exact List.mem_cons_self u rest))
      · have hv' : u ∉ s.visited := fun hmem => hv ((contains_true_iff _ _).mpr hmem)
        rw [step_proc w base mp s u rest hq (by omega) (by simpa using hv)] at h
        obtain rfl : s' = processUrl w base s u rest := (Option.some.inj h).symm
        have hrest : ∀ x ∈ rest, x ∉ s.visited ++ [u] := by
          intro x hx hmem
          rcases List.mem_append.mp hmem with hm | hm
          · exact hinv.disj x (by rw [hq]; exact List.mem_cons.mpr (Or.inr hx)) hm
          · rw [List.mem_singleton] at hm
            subst hm
            exact (List.nodup_cons.mp hnodup).1 hx
        have hqinv := processUrl_queue_inv w base s u rest
          (List.nodup_cons.mp hnodup).2 hrest
        refine ⟨hqinv.1, ?_, ?_, ?_, ?_, ?_, ?_⟩
        · intro x hx
          rw [processUrl_visited]
          exact hqinv.2 x hx
        · intro x hx
          rcases processUrl_queue_mem w base s u rest x hx with hm | hm
          · exact hinv.qAdm x (by rw [hq]; exact List.mem_cons.mpr (Or.inr hm))
          · exact Or.inr hm
        · intro x hx
          rw [processUrl_procUrls] at hx
          rw [processUrl_visited]
          rcases List.mem_append.mp hx with hm | hm
          · exact List.mem_append.mpr (Or.inl (hinv.procSub x hm))
          · exact List.mem_append.mpr (Or.inr hm)
        · rw [processUrl_procUrls, List.nodup_append]
          refine ⟨hinv.procNodup, List.nodup_singleton u, ?_⟩
          intro a ha ha'
          rw [List.mem_singleton] at ha'
          subst ha'
          exact hv' (hinv.procSub a ha)
        · intro x hx
          rw [processUrl_deqUrls] at hx
          rw [processUrl_visited]
          rcases List.mem_append.mp hx with hm | hm
          · exact List.mem_append.mpr (Or.inl (hinv.deqSub x hm))
          · exact List.mem_append.mpr (Or.inr hm)
        · rw [processUrl_deqUrls, List.nodup_append]
          refine ⟨hinv.deqNodup, List.nodup_singleton u, ?_⟩
          intro a ha ha'
          rw [List.mem_singleton] at ha'
          subst ha'
          exact hv' (hinv.deqSub a ha)

theorem inv_iter (w : World) (base : String) (mp : Nat) :
    ∀ (n : Nat) (s : ScrapeState), Inv base s → Inv base (scrapeIter w base mp n s) := by
  intro n
  induction n with
  | zero => intro s hs; exact hs
  | succ n ih =>
    intro s hs
    show Inv base (scrapeIter w base mp n (step1 w base mp s))
    apply ih
    cases hstep : scrapeStep w base mp s with
    | none => rw [step1_of_none w base mp s hstep]; exact hs
    | some s' =>
      rw [step1_of_step w base mp s s' hstep]
      exact inv_step w base mp s s' hs hstep

theorem inv_crawl (w : World) (base : String) (mp n : Nat) :
    Inv base (crawlState w base mp n) :=
  inv_iter w base mp n (initState base) (inv_init base)

theorem iter_visited_mono (w : World) (base : String) (mp : Nat) :
    ∀ (k : Nat) (s : ScrapeState) (x : String),
      x ∈ s.visited → x ∈ (scrapeIter w base mp k s).visited := by
  intro k
  induction k with
  | zero => intro s x hx; exact hx
  | succ k ih =>
    intro s x hx
    show x ∈ (scrapeIter w base mp k (step1 w base mp s)).visited
    apply ih
    cases hstep : scrapeStep w base mp s with
    | none => rw [step1_of_none w base mp s hstep]; exact hx
    | some s' =>
      rw [step1_of_step w base mp s s' hstep]
      exact step_visited_mono w base mp s s' hstep x hx

theorem scrapeIter_add (w : World) (base : String) (mp : Nat) :
    ∀ (a b : Nat) (s : ScrapeState),
      scrapeIter w base mp (a + b) s = scrapeIter w base mp a (scrapeIter w base mp b s) := by
  intro a b
  induction b with
  | zero => intro s; rfl
  | succ b ih =>
    intro s
    calc scrapeIter w base mp (a + (b + 1)) s
        = scrapeIter w base mp (a + b) (step1 w base mp s) := rfl
      _ = scrapeIter w base mp a (scrapeIter w base mp b (step1 w base mp s)) := ih _
      _ = scrapeIter w base mp a (scrapeIter w base mp (b + 1) s) := rfl

theorem crawl_visited_mono (w : World) (base : String) (mp : Nat) (n m : Nat)
    (hle : n ≤ m) (x : String) (hx : x ∈ (crawlState w base mp n).visited) :
    x ∈ (crawlState w base mp m).visited := by
  have hm : m = (m - n) + n := by omega
  rw [hm]
  show x ∈ (scrapeIter w base mp ((m - n) + n) (initState base)).visited
  rw [scrapeIter_add]
  exact iter_visited_mono w base mp (m - n) _ x hx

/-- C1: at every point of a run, a URL is in at most one of the visited set and
the pending queue; once a URL is in the visited set it is never in the queue at
any later point; and the URLs dequeued — and the ones handed to `scrape_page` —
are pairwise distinct, so each URL is dequeued and processed at most once. -/
theorem c1_frontier_exclusive (w : World) (base : String) (mp n m : Nat) (u : String)
    (hle : n ≤ m) :
    (u ∈ (crawlState w base mp n).queue → u ∉ (crawlState w base mp n).visited) ∧
      (u ∈ (crawlState w base mp n).visited → u ∉ (crawlState w base mp m).queue) ∧
      (dequeuedUrls (crawlState w base mp n).events).Nodup ∧
      (processedUrls (crawlState w base mp n).events).Nodup := by
  refine ⟨fun hq => (inv_crawl w base mp n).disj u hq, ?_,
    (inv_crawl w base mp n).deqNodup, (inv_crawl w base mp n).procNodup⟩
  intro hv hq
  exact (inv_crawl w base mp m).disj u hq (crawl_visited_mono w base mp n m hle u hv)

/-- A world in which every fetch fails and the extraction collaborator never
answers. -/
def failWorld : World :=
  { fetch := fun _ => none, llm := fun _ => none }

/-- Witness for `c1_frontier_exclusive`: after one step of a run on a failing
world the base URL is visited, and at step 2 it is not queued. -/
theorem c1_frontier_exclusive_witness :
    ("http://h" ∈ (crawlState failWorld "http://h" 50 1).queue →
        "http://h" ∉ (crawlState failWorld "http://h" 50 1).visited) ∧
      ("http://h" ∈ (crawlState failWorld "http://h" 50 1).visited →
        "http://h" ∉ (crawlState failWorld "http://h" 50 2).queue) ∧
      (dequeuedUrls (crawlState failWorld "http://h" 50 1).events).Nodup ∧
      (processedUrls (crawlState failWorld "http://h" 50 1).events).Nodup :=
  c1_frontier_exclusive failWorld "http://h" 50 1 2 "http://h" (by omega)

/-- Counterexample to C6: a base URL rejected by the admission check (scheme
`ftp`) is nevertheless seeded into the pending queue by `scrape_website`
(utils.py line 104), so a rejected URL does end up in the queue. -/
theorem c6_counterexample :
    is_valid_url "ftp://h" "ftp://h" = false ∧
      "ftp://h" ∈ (crawlState failWorld "ftp://h" 50 0).queue := by
  refine ⟨by decide, ?_⟩
  show "ftp://h" ∈ ["ftp://h"]
  simp

/-- C6 (amended): every URL that ever appears in the pending queue is either
the seeded base URL itself — which bypasses the admission check — or a URL the
admission check accepts; in particular `extract_links` never enqueues a
rejected URL. -/
theorem c6_amended_only_admitted_queued (w : World) (base : String) (mp n : Nat)
    (u : String) (hq : u ∈ (crawlState w base mp n).queue) :
    u = base ∨ is_valid_url base u = true :=
  (inv_crawl w base mp n).qAdm u hq

/-- A world where the base page succeeds with a single same-host link and the
extraction collaborator never answers. -/
def linkWorld : World :=
  { fetch := fun url =>
      if url = "http://h" then some { text := [], hrefs := ["http://h/a"] } else none,
    llm := fun _ => none }

/-- Witness for `c6_amended_only_admitted_queued`: the link discovered on the
base page is queued after one step, and it is indeed admitted. -/
theorem c6_amended_only_admitted_queued_witness :
    "http://h/a" = "http://h" ∨ is_valid_url "http://h" "http://h/a" = true :=
  c6_amended_only_admitted_queued linkWorld "http://h" 50 1 "http://h/a" (by decide)

/-- A world whose pages fetch successfully (with one same-host link) but whose
extraction collaborator always fails: the reply is never valid JSON. -/
def llmFailWorld : World :=
  { fetch := fun _ => some { text := [], hrefs := ["http://h/b"] },
    llm := fun _ => none }

/-- Counterexample to C2: the extraction step fails (the collaborator reply is
not valid JSON), yet `scrape_page` returns success, the processed-page counter
increments, and the page still contributes a new URL to the pending queue — the
exception is caught inside `extract_profiles_with_openai`, not in
`scrape_page`. -/
theorem c2_counterexample :
    llmFailWorld.llm (clean_text []) = none ∧
      (scrape_page llmFailWorld "http://h" (initState "http://h") "http://h").1 = true ∧
      (crawlState llmFailWorld "http://h" 50 1).pagesScraped = 1 ∧
      (crawlState llmFailWorld "http://h" 50 1).queue = ["http://h/b"] :=
  ⟨rfl, rfl, by decide, by decide⟩

/-- C2 (amended): for every URL whose fetch or HTML-parse step raises,
`scrape_page` returns failure, the page contributes zero profiles and zero new
URLs, the URL is nevertheless in the visited set afterwards, the processed-page
counter is unchanged, and the driver loop continues with the next queued URL.
(An extraction failure, by contrast, is absorbed inside the collaborator call:
the page yields zero profiles but still counts as successfully processed.) -/
theorem c2_amended_fetch_failure (w : World) (base : String) (mp : Nat)
    (s : ScrapeState) (u : String) (rest : List String)
    (hq : s.queue = u :: rest) (hmp : s.pagesScraped < mp)
    (hv : s.visited.contains u = false) (hf : w.fetch u = none) :
    ∃ s', scrapeStep w base mp s = some s' ∧ s'.profiles = s.profiles ∧
      s'.queue = rest ∧ u ∈ s'.visited ∧ s'.pagesScraped = s.pagesScraped := by
  have hsp := scrape_page_fetch_none w base (markVisited s u rest) u hf
  refine ⟨processUrl w base s u rest, step_proc w base mp s u rest hq hmp hv,
    ?_, ?_, ?_, ?_⟩
  · simp only [processUrl, hsp]
    rw [if_neg Bool.false_ne_true]
    split <;> simp [markVisited]
  · simp only [processUrl, hsp]
    rw [if_neg Bool.false_ne_true]
    split <;> simp [markVisited]
  · simp only [processUrl, hsp]
    rw [if_neg Bool.false_ne_true]
    split <;> simp [markVisited]
  · simp only [processUrl, hsp]
    rw [if_neg Bool.false_ne_true]
    split <;> simp [markVisited]

/-- Witness for `c2_amended_fetch_failure` at a concrete failing fetch. -/
theorem c2_amended_fetch_failure_witness :
    ∃ s', scrapeStep failWorld "http://h" 50 (initState "http://h") = some s' ∧
      s'.profiles = (initState "http://h").profiles ∧
      s'.queue = [] ∧ "http://h" ∈ s'.visited ∧
      s'.pagesScraped = (initState "http://h").pagesScraped :=
  c2_amended_fetch_failure failWorld "http://h" 50 (initState "http://h") "http://h" []
    rfl (by decide) rfl rfl

/-- C3: in every non-skipped loop iteration the trace gains a save event exactly
when the updated `pages_scraped` satisfies `count % 10 == 0` — including the
count-0 edge case when the very first pages fail — and `scrape_website` always
ends with a final save. -/
theorem c3_save_schedule (w : World) (base : String) (mp : Nat) (s s' : ScrapeState)
    (u : String) (rest : List String) :
    (s.queue = u :: rest → s.pagesScraped < mp → s.visited.contains u = false →
      scrapeStep w base mp s = some s' →
      s'.events = s.events ++ [Event.dequeued u, Event.processed u] ++
        (if s'.pagesScraped % 10 = 0 then [Event.saved s'.pagesScraped] else [])) ∧
      (∃ pre, (scrape_website w base mp).events =
        pre ++ [Event.saved (scrape_website w base mp).pagesScraped]) := by
  constructor
  · intro hq hmp hv hstep
    rw [step_proc w base mp s u rest hq hmp hv] at hstep
    obtain rfl : s' = processUrl w base s u rest := (Option.some.inj hstep).symm
    rcases hpr : scrape_page w base (markVisited s u rest) u with ⟨b, t⟩
    have hev : t.events = s.events ++ [Event.dequeued u, Event.processed u] := by
      have h := scrape_page_events w base (markVisited s u rest) u
      rw [hpr] at h
      exact h
    cases b
    · simp only [processUrl, hpr]
      rw [if_neg Bool.false_ne_true]
      by_cases hmod : t.pagesScraped % 10 = 0
      · simp [hmod, hev]
      · simp [hmod, hev]
    · simp only [processUrl, hpr]
      rw [if_pos trivial]
      by_cases hmod : (t.pagesScraped + 1) % 10 = 0
      · simp [hmod, hev]
      · simp [hmod, hev]
  · exact ⟨(scrapeLoop w base mp (initState base)).events, rfl⟩

/-- The state after the first iteration of a run on `failWorld`: the base URL is
visited, the fetch failed, the counter stays 0, and — because `0 % 10 == 0` —
a save occurred. -/
def failStepState : ScrapeState :=
  { visited := ["http://h"], queue := [], profiles := [], pagesScraped := 0,
    events := [Event.dequeued "http://h", Event.processed "http://h", Event.saved 0] }

/-- Witness for `c3_save_schedule`: the concrete first iteration on a failing
world saves at count 0, and the finished run ends with a save. -/
theorem c3_save_schedule_witness :
    failStepState.events = (initState "http://h").events ++
        [Event.dequeued "http://h", Event.processed "http://h"] ++
      (if failStepState.pagesScraped % 10 = 0
        then [Event.saved failStepState.pagesScraped] else []) ∧
      (∃ pre, (scrape_website failWorld "http://h" 50).events =
        pre ++ [Event.saved (scrape_website failWorld "http://h" 50).pagesScraped]) :=
  ⟨(c3_save_schedule failWorld "http://h" 50 (initState "http://h") failStepState
      "http://h" []).1 rfl (by decide) rfl rfl,
    (c3_save_schedule failWorld "http://h" 50 (initState "http://h") failStepState
      "http://h" []).2⟩

end BDAScraper
